import Mathlib

set_option maxRecDepth 8192

/-!
Shallow embedding of the ginapi repository's language-negotiation middleware
(`middleware` package, cookie-aware variant), the `ids` base62 codec and the
`pagination` parameter normalization, together with theorems settling the
spec claims. Go strings are modelled as Lean `String`/`List Char` (ASCII
reading: Go iterates bytes, the inputs of interest are ASCII); Go `int64`
arithmetic that can overflow is modelled with an explicit wrap at 2^64;
`float64` quality values are modelled as exact rationals (`ℚ`).
-/

namespace GinApi

/-! ### Models of the Go `strings` / `unicode` helpers used by the source -/

/-- Model of `unicode.IsSpace` restricted to the ASCII whitespace characters. -/
def isSpaceChar (c : Char) : Bool :=
  c = ' ' || c = '\t' || c = '\n' || c = '\x0b' || c = '\x0c' || c = '\r'

/-- ASCII lower-casing of one character (model of `strings.ToLower` per char). -/
def toLowerChar (c : Char) : Char :=
  if 'A' ≤ c ∧ c ≤ 'Z' then Char.ofNat (c.toNat + 32) else c

/-- Model of `strings.ToLower`. -/
def goToLower (s : String) : String := String.mk (s.data.map toLowerChar)

/-- Trim leading and trailing whitespace from a character list. -/
def trimSpaceL (l : List Char) : List Char :=
  ((l.dropWhile isSpaceChar).reverse.dropWhile isSpaceChar).reverse

/-- Model of `strings.TrimSpace`. -/
def goTrimSpace (s : String) : String := String.mk (trimSpaceL s.data)

/-- Model of `strings.HasPrefix`. -/
def goHasPrefix (s pre : String) : Bool := pre.data.isPrefixOf s.data

/-- Model of `strings.HasSuffix`. -/
def goHasSuffix (s suf : String) : Bool := suf.data.isSuffixOf s.data

/-- Model of `strings.TrimPrefix`. -/
def goTrimPrefix (s pre : String) : String :=
  if pre.data.isPrefixOf s.data then String.mk (s.data.drop pre.data.length) else s

/-- Split a character list on a separator character; model of `strings.Split`
with a one-character separator (always returns at least one piece). -/
def splitChar (sep : Char) : List Char → List (List Char)
  | [] => [[]]
  | c :: cs =>
    let r := splitChar sep cs
    if c = sep then [] :: r
    else
      match r with
      | [] => [[c]]
      | x :: xs => (c :: x) :: xs

/-- Split at the first occurrence of `sep`, returning the text before and after
it; `none` when `sep` does not occur. Models Go's `strings.Index` idiom
`part[:idx]` / `part[idx+1:]`. -/
def breakOnFirst (sep : Char) : List Char → Option (List Char × List Char)
  | [] => none
  | c :: cs =>
    if c = sep then some ([], cs)
    else
      match breakOnFirst sep cs with
      | some (a, b) => some (c :: a, b)
      | none => none

/-- Numeric value of a list of decimal digit characters (most significant first). -/
def digitsToNat (l : List Char) : Nat :=
  l.foldl (fun a c => 10 * a + (c.toNat - 48)) 0

/-- Model of `strconv.ParseFloat` on the decimal syntax
(optional sign, digits with optional fraction, optional decimal exponent),
returning the exact rational value. Rounding to `float64`, hexadecimal
floats, `inf`/`NaN` spellings and digit-group underscores are idealized
away: quality values in `Accept-Language` headers use the plain decimal
syntax, where the exact-rational reading is faithful. -/
def goParseFloatL (l : List Char) : Option ℚ :=
  let sgnRest : ℚ × List Char :=
    match l with
    | '+' :: r => (1, r)
    | '-' :: r => (-1, r)
    | _ => (1, l)
  let sgn := sgnRest.1
  let rest := sgnRest.2
  let intDigits := rest.takeWhile Char.isDigit
  let rest1 := rest.dropWhile Char.isDigit
  let fracRest : List Char × List Char :=
    match rest1 with
    | '.' :: r => (r.takeWhile Char.isDigit, r.dropWhile Char.isDigit)
    | _ => ([], rest1)
  let fracDigits := fracRest.1
  let rest2 := fracRest.2
  if intDigits = [] ∧ fracDigits = [] then none
  else
    let mant : ℚ :=
      sgn * ((digitsToNat intDigits : ℚ) +
        (digitsToNat fracDigits : ℚ) / (10 : ℚ) ^ fracDigits.length)
    match rest2 with
    | [] => some mant
    | e :: r =>
      if e = 'e' ∨ e = 'E' then
        let esgnRest : Int × List Char :=
          match r with
          | '+' :: rr => (1, rr)
          | '-' :: rr => (-1, rr)
          | _ => (1, r)
        let eDigits := esgnRest.2.takeWhile Char.isDigit
        let r3 := esgnRest.2.dropWhile Char.isDigit
        if eDigits = [] ∨ r3 ≠ [] then none
        else some (mant * (10 : ℚ) ^ (esgnRest.1 * (digitsToNat eDigits : Int)))
      else none

/-! ### Accept-Language parsing (`ParseAcceptLanguage` in the source) -/

/-- One entry of the Accept-Language header after parsing: primary subtag and
quality value (the `candidate` struct of the source). -/
abbrev Cand := String × ℚ

/-- Parse one comma-separated entry of an Accept-Language header: the body of
the candidate-building loop of `ParseAcceptLanguage`. Returns `none` for
entries the loop `continue`s past (blank entry, empty subtag). -/
def parseEntry (rawPart : List Char) : Option Cand :=
  let part := trimSpaceL rawPart
  if part = [] then none
  else
    let langAndQ : List Char × ℚ :=
      match breakOnFirst ';' part with
      | some (before, after) =>
        let param := trimSpaceL after
        if ("q=".data).isPrefixOf param then
          match goParseFloatL (param.drop 2) with
          | some v => (before, v)
          | none => (before, 1)
        else (before, 1)
      | none => (part, 1)
    let lang0 : List Char :=
      match breakOnFirst '-' langAndQ.1 with
      | some (before2, _) => before2
      | none => langAndQ.1
    let lang := (trimSpaceL lang0).map toLowerChar
    if lang = [] then none else some (String.mk lang, langAndQ.2)

/-- The candidate list built by `ParseAcceptLanguage` from a header value. -/
def acceptCandidates (header : String) : List Cand :=
  (splitChar ',' header.data).filterMap parseEntry

/-- One step of the best-candidate scan of `ParseAcceptLanguage`
(`if _, ok := supported[c.lang]; ok && c.q > bestQ { ... }`). The supported
set is modelled as the list of (lower-cased) keys of the Go map. -/
def selStep (supported : List String) (acc : Cand) (c : Cand) : Cand :=
  if c.1 ∈ supported ∧ acc.2 < c.2 then c else acc

/-- The best-candidate scan of `ParseAcceptLanguage`: `bestLang` starts `""`,
`bestQ` starts `-1`. -/
def selectBest (cs : List Cand) (supported : List String) : String :=
  (cs.foldl (selStep supported) ("", -1)).1

/-- Model of `ParseAcceptLanguage`: build the candidates, then scan for the
highest-quality supported one. -/
def ParseAcceptLanguage (header : String) (supported : List String) : String :=
  selectBest (acceptCandidates header) supported

/-! ### The HTTP request model

Only the request fields the middleware reads are modelled: the parsed query
parameters (what `c.Query` exposes from `URL.RawQuery`), the URL path, the
raw query string, the cookie jar (what `c.Cookie` exposes: `some` exactly
when the named cookie is present, i.e. the `err == nil` case) and the
`Accept-Language` header (`""` when absent, as `c.GetHeader` reports). -/

structure Request where
  query : List (String × String)
  path : String
  rawQuery : String
  cookies : List (String × String)
  acceptLanguage : String

/-- Model of `c.Query name`: first binding of the parameter, `""` if absent. -/
def reqQuery (req : Request) (name : String) : String :=
  ((req.query.find? (fun p => p.1 == name)).map Prod.snd).getD ""

/-- Model of `c.Cookie name`: `some value` when present (`err == nil`). -/
def reqCookie (req : Request) (name : String) : Option String :=
  (req.cookies.find? (fun p => p.1 == name)).map Prod.snd

/-! ### Language extraction and resolution (`language.go`, cookie-aware variant) -/

/-- The first path segment: `strings.SplitN(strings.TrimPrefix(path, "/"), "/", 2)[0]`. -/
def firstPathSegment (path : String) : String :=
  String.mk ((splitChar '/' (goTrimPrefix path "/").data).headD [])

/-- Model of `extractLanguageFromPath`: the first path segment, lower-cased,
when its length is exactly 2 or 3; `""` otherwise. -/
def extractLanguageFromPath (path : String) : String :=
  let first := firstPathSegment path
  if first.length = 2 ∨ first.length = 3 then goToLower first else ""

/-- Model of `resolveLanguage` (cookie-aware variant): query parameter, then
URL path prefix, then cookie, then Accept-Language, then the fallback. The
`supported` list models the key set of the Go `supported` map. -/
def resolveLanguage (req : Request) (supported : List String)
    (fallback queryParam cookieName : String) : String :=
  let qv := goToLower (goTrimSpace (reqQuery req queryParam))
  if qv ≠ "" ∧ qv ∈ supported then qv
  else
    let pv := extractLanguageFromPath req.path
    if pv ≠ "" ∧ pv ∈ supported then pv
    else
      let cookieHit : Option String :=
        if cookieName ≠ "" then
          match reqCookie req cookieName with
          | some v =>
            if v ≠ "" then
              let cl := goToLower (goTrimSpace v)
              if cl ∈ supported then some cl else none
            else none
          | none => none
        else none
      match cookieHit with
      | some l => l
      | none =>
        if req.acceptLanguage ≠ "" then
          let al := ParseAcceptLanguage req.acceptLanguage supported
          if al ≠ "" then al else fallback
        else fallback

/-! ### The `Language` middleware factory configuration -/

structure LanguageConfig where
  Supported : List String
  Default : String
  QueryParam : String
  CookieName : String

/-- The supported-language key set built by `Language`: lower-cased entries,
`{"en"}` when the configuration supplies none. -/
def effLangSupported (cfg : LanguageConfig) : List String :=
  let m := cfg.Supported.map goToLower
  if m = [] then ["en"] else m

/-- Default-language normalization shared by `Language` and `LanguageRedirect`:
lower-cased and trimmed, `"en"` when empty. -/
def effDefaultLang (d : String) : String :=
  let x := goToLower (goTrimSpace d)
  if x = "" then "en" else x

/-- The effective query-parameter name of `Language` (`"lang"` by default). -/
def effQueryParam (cfg : LanguageConfig) : String :=
  if cfg.QueryParam = "" then "lang" else cfg.QueryParam

/-- The effective cookie name of `Language` (`"lang"` by default). -/
def effCookieName (cfg : LanguageConfig) : String :=
  if cfg.CookieName = "" then "lang" else cfg.CookieName

/-- The locale the `Language` middleware resolves and stores for a request
(it then sets the gin slot, the request context and `Content-Language` to
this value and always calls `c.Next()`). -/
def languageResolve (cfg : LanguageConfig) (req : Request) : String :=
  resolveLanguage req (effLangSupported cfg) (effDefaultLang cfg.Default)
    (effQueryParam cfg) (effCookieName cfg)

/-! ### The `LanguageRedirect` middleware -/

/-- Model of the `LanguageCookieName` constant of the source. -/
def LanguageCookieName : String := "lang"

structure LanguageRedirectConfig where
  Supported : List String
  Default : String
  SkipPaths : List String
  SkipExtensions : List String

/-- The built-in skip-path prefixes used when none are configured. -/
def defaultSkipPaths : List String := ["/api/", "/auth/", "/oauth/", "/.well-known/"]

/-- The built-in skip file extensions used when none are configured. -/
def defaultSkipExtensions : List String :=
  [".js", ".css", ".png", ".jpg", ".jpeg", ".gif", ".svg", ".ico",
   ".woff", ".woff2", ".ttf", ".eot", ".map", ".webp", ".mp4", ".webm"]

/-- The effective skip-path prefixes of `LanguageRedirect`. -/
def effSkipPaths (cfg : LanguageRedirectConfig) : List String :=
  if cfg.SkipPaths = [] then defaultSkipPaths else cfg.SkipPaths

/-- The effective skip extensions of `LanguageRedirect`. -/
def effSkipExtensions (cfg : LanguageRedirectConfig) : List String :=
  if cfg.SkipExtensions = [] then defaultSkipExtensions else cfg.SkipExtensions

/-- The supported-language key set of `LanguageRedirect`
(`BuildSupportedMap`: lower-cased entries, no `"en"` fallback here). -/
def effRedirectSupported (cfg : LanguageRedirectConfig) : List String :=
  cfg.Supported.map goToLower

/-- Model of `shouldSkipRedirect`: configured path prefixes, the fixed
health-check and runtime-config paths, and configured file extensions
(case-insensitive suffix match). -/
def shouldSkipRedirect (path : String) (skipPaths skipExtensions : List String) : Bool :=
  skipPaths.any (fun p => goHasPrefix path p) ||
  (path == "/health" || path == "/healthz" || path == "/readyz") ||
  path == "/runtime-config.js" ||
  (let lowPath := goToLower path
   skipExtensions.any (fun ext => goHasSuffix lowPath ext))

/-- Model of `detectPreferredLanguage`: cookie (fixed name `"lang"`), then
Accept-Language, then the default. -/
def detectPreferredLanguage (req : Request) (supportedMap : List String)
    (defaultLang : String) : String :=
  let cookieHit : Option String :=
    match reqCookie req LanguageCookieName with
    | some v =>
      if v ≠ "" then
        let l := goToLower (goTrimSpace v)
        if l ∈ supportedMap then some l else none
      else none
    | none => none
  match cookieHit with
  | some l => l
  | none =>
    if req.acceptLanguage ≠ "" then
      let l := ParseAcceptLanguage req.acceptLanguage supportedMap
      if l ≠ "" then l else defaultLang
    else defaultLang

/-- The per-request outcome of the `LanguageRedirect` handler.
`next cookieSet` models `c.Next()` (pass through to downstream handlers),
with `cookieSet = some l` when `setLanguageCookie` wrote the preference
cookie `lang=l` (max-age one year, path `/`, SameSite=Lax) first.
`redirect status location` models `c.Redirect(status, location); c.Abort()`:
the response is issued and no downstream handler executes. -/
inductive RedirectOutcome where
  | next (cookieSet : Option String)
  | redirect (status : Nat) (location : String)
deriving DecidableEq

/-- Location built in the redirect branch of `LanguageRedirect`:
`"/" + preferredLang + path`, plus `"?" + RawQuery` when non-empty. -/
def redirectLocation (cfg : LanguageRedirectConfig) (req : Request) : String :=
  let preferredLang :=
    detectPreferredLanguage req (effRedirectSupported cfg) (effDefaultLang cfg.Default)
  let redirectURL := "/" ++ preferredLang ++ req.path
  if req.rawQuery ≠ "" then redirectURL ++ "?" ++ req.rawQuery else redirectURL

/-- Model of the `LanguageRedirect` handler: the empty-configuration guard,
the skip guard, the valid-prefix pass-through (which sets the cookie), and
otherwise the 302 redirect (`http.StatusFound`). -/
def languageRedirect (cfg : LanguageRedirectConfig) (req : Request) : RedirectOutcome :=
  if cfg.Supported = [] then RedirectOutcome.next none
  else if shouldSkipRedirect req.path (effSkipPaths cfg) (effSkipExtensions cfg) then
    RedirectOutcome.next none
  else if extractLanguageFromPath req.path ≠ "" ∧
      extractLanguageFromPath req.path ∈ effRedirectSupported cfg then
    RedirectOutcome.next (some (extractLanguageFromPath req.path))
  else
    RedirectOutcome.redirect 302 (redirectLocation cfg req)

/-- Does the outcome issue a redirect (terminating the chain)? -/
def RedirectOutcome.isRedirect : RedirectOutcome → Bool
  | .redirect _ _ => true
  | .next _ => false

/-! ### `GetLanguage` and context propagation -/

/-- The two per-request storage channels `GetLanguage` reads: the gin-context
slot for key `"language"` (only strings are stored there by this package)
and the request context's `languageKey` entry. -/
structure GinContext where
  language : Option String
  requestCtx : Option String

/-- Model of `LanguageFromContext`: the stored value, `""` when absent
(`nil` context and missing key both yield `""`). -/
def LanguageFromContext (ctx : Option String) : String :=
  match ctx with
  | some v => v
  | none => ""

/-- The tail of `GetLanguage` after the gin-context check: request context
when it yields a non-empty value, else the hard-coded `"en"`. -/
def getLanguageFallback (ctx : GinContext) : String :=
  if LanguageFromContext ctx.requestCtx ≠ "" then LanguageFromContext ctx.requestCtx
  else "en"

/-- Model of `GetLanguage`: `none` models a `nil` gin context. -/
def GetLanguage (c : Option GinContext) : String :=
  match c with
  | none => "en"
  | some ctx =>
    match ctx.language with
    | some s => if s ≠ "" then s else getLanguageFallback ctx
    | none => getLanguageFallback ctx

end GinApi

namespace Ids

open GinApi

/-! ### The `ids` package: Stripe-style base62 id codec. Go `int64` values
are modelled as `Int`; the decoder's `result*62 + idx` accumulator wraps at
2^64 exactly as `int64` arithmetic does. -/

/-- The base62 alphabet of the source. -/
def base62Chars : String :=
  "0123456789ABCDEFGHIJKLMNOPQRSTUVWXYZabcdefghijklmnopqrstuvwxyz"

/-- Two's-complement wrap of signed 64-bit arithmetic. -/
def wrap64 (x : Int) : Int := (x + 2 ^ 63) % 2 ^ 64 - 2 ^ 63

/-- The digit-emitting loop of `encodeBase62` for a positive value: digits of
`n` in base 62, most significant first (`for num > 0 { prepend digit }`). -/
def encodeBase62Aux (n : Nat) : List Char :=
  if h : n = 0 then []
  else encodeBase62Aux (n / 62) ++ [base62Chars.data.getD (n % 62) ' ']
decreasing_by exact Nat.div_lt_self (Nat.pos_of_ne_zero h) (by decide)

/-- Model of `encodeBase62`: `"0"` for zero; otherwise the loop, which for a
negative `int64` never runs and yields `""`. -/
def encodeBase62 (num : Int) : String :=
  if num = 0 then "0" else String.mk (encodeBase62Aux num.toNat)

/-- The character loop of `decodeBase62`: `strings.IndexRune` lookup and the
wrapping `result = result*62 + int64(idx)` accumulator. -/
def decodeBase62Aux : List Char → Int → Except String Int
  | [], acc => .ok acc
  | c :: cs, acc =>
    match base62Chars.data.findIdx? (fun d => d == c) with
    | some idx => decodeBase62Aux cs (wrap64 (acc * 62 + idx))
    | none => .error ("invalid base62 character: " ++ String.singleton c)

/-- Model of `decodeBase62`. -/
def decodeBase62 (s : String) : Except String Int := decodeBase62Aux s.data 0

/-- Model of `Format`: `prefix + "_" + encodeBase62(id)`. -/
def Format (pfx : String) (id : Int) : String := pfx ++ "_" ++ encodeBase62 id

/-- Model of `Parse`: check and strip `prefix + "_"`, then decode. -/
def Parse (pfx prefixedID : String) : Except String Int :=
  let expectedPrefix := pfx ++ "_"
  if goHasPrefix prefixedID expectedPrefix then
    decodeBase62 (goTrimPrefix prefixedID expectedPrefix)
  else
    .error ("invalid prefix: expected " ++ expectedPrefix ++ ", got " ++ prefixedID)

end Ids

namespace Pagination

/-! ### The `pagination` package. Go `int` is modelled as `Int`. -/

/-- Pagination parameters of a request (Go field `Sort` is `SortBy` here:
`Sort` is a reserved word in Lean). -/
structure Params where
  Limit : Int
  Offset : Int
  SortBy : String
deriving DecidableEq

/-- Model of `Params.Normalize`: apply the default to a non-positive limit,
cap the limit at `maxLimit`, clamp a negative offset to zero. -/
def Normalize (p : Params) (defaultLimit maxLimit : Int) : Params :=
  let p1 := if p.Limit ≤ 0 then { p with Limit := defaultLimit } else p
  let p2 := if p1.Limit > maxLimit then { p1 with Limit := maxLimit } else p1
  if p2.Offset < 0 then { p2 with Offset := 0 } else p2

end Pagination

namespace Ids

open GinApi

/-! ### Claim C9: the base62 id codec round-trip -/

theorem wrap64_eq_of_bounds (x : Int) (h0 : 0 ≤ x) (h1 : x < 2 ^ 63) :
    wrap64 x = x := by
  unfold wrap64
  have h2 : (x + 2 ^ 63) % 2 ^ 64 = x + 2 ^ 63 := Int.emod_eq_of_lt (by omega) (by omega)
  omega

theorem findIdx_digit_fin : ∀ d : Fin 62,
    base62Chars.data.findIdx? (fun c => c == base62Chars.data.getD d.val ' ') = some d.val := by
  decide

theorem findIdx_digit (d : Nat) (hd : d < 62) :
    base62Chars.data.findIdx? (fun c => c == base62Chars.data.getD d ' ') = some d :=
  findIdx_digit_fin ⟨d, hd⟩

theorem decodeBase62Aux_append_ok (xs ys : List Char) (acc a : Int)
    (h : decodeBase62Aux xs acc = .ok a) :
    decodeBase62Aux (xs ++ ys) acc = decodeBase62Aux ys a := by
  induction xs generalizing acc with
  | nil =>
    unfold decodeBase62Aux at h
    injection h with h
    subst h
    simp
  | cons c cs ih =>
    rw [List.cons_append]
    rcases hf : base62Chars.data.findIdx? (fun d => d == c) with _ | idx
    · exfalso
      simp only [decodeBase62Aux, hf] at h
      exact Except.noConfusion h
    · simp only [decodeBase62Aux, hf] at h ⊢
      exact ih _ h

theorem encodeBase62Aux_zero : encodeBase62Aux 0 = [] := by
  unfold encodeBase62Aux
  simp

theorem encodeBase62Aux_step (m : Nat) (hm : m ≠ 0) :
    encodeBase62Aux m =
      encodeBase62Aux (m / 62) ++ [base62Chars.data.getD (m % 62) ' '] := by
  conv_lhs => rw [encodeBase62Aux]
  simp [hm]

/-- Decoding the digit list of `m` starting from accumulator `acc` yields
`acc * 62^digits + m`, as long as that value stays within `int64` range
(so the wrapping accumulator never wraps). -/
theorem decode_encodeAux (m : Nat) : ∀ acc : Int, 0 ≤ acc →
    acc * 62 ^ (encodeBase62Aux m).length + m < 2 ^ 63 →
    decodeBase62Aux (encodeBase62Aux m) acc =
      .ok (acc * 62 ^ (encodeBase62Aux m).length + m) := by
  induction m using Nat.strong_induction_on with
  | _ m ih =>
    intro acc hacc hbound
    by_cases hm : m = 0
    · subst hm
      rw [encodeBase62Aux_zero]
      unfold decodeBase62Aux
      simp
    · have hrec := encodeBase62Aux_step m hm
      have hlen : (encodeBase62Aux m).length = (encodeBase62Aux (m / 62)).length + 1 := by
        rw [hrec]; simp
      set L := (encodeBase62Aux (m / 62)).length with hL
      have hX : (0 : Int) ≤ acc * 62 ^ L := by positivity
      have hd : (0 : Int) ≤ ((m / 62 : Nat) : Int) := Int.natCast_nonneg _
      have hr : (0 : Int) ≤ ((m % 62 : Nat) : Int) := Int.natCast_nonneg _
      have hmm : (62 : Int) * ((m / 62 : Nat) : Int) + ((m % 62 : Nat) : Int) = (m : Int) := by
        exact_mod_cast Nat.div_add_mod m 62
      have hbound' : acc * 62 ^ L * 62 + (m : Int) < 2 ^ 63 := by
        have := hbound
        rw [hlen, pow_succ] at this
        linarith [this]
      have hboundIH : acc * 62 ^ L + ((m / 62 : Nat) : Int) < 2 ^ 63 := by
        nlinarith [hX, hd, hr, hmm, hbound']
      have hdivlt : m / 62 < m := Nat.div_lt_self (Nat.pos_of_ne_zero hm) (by omega)
      have hIH := ih (m / 62) hdivlt acc hacc hboundIH
      rw [hlen, hrec, decodeBase62Aux_append_ok _ _ _ _ hIH]
      set A : Int := acc * 62 ^ L + ((m / 62 : Nat) : Int) with hA
      have harith : A * 62 + ((m % 62 : Nat) : Int) = acc * 62 ^ (L + 1) + (m : Int) := by
        rw [pow_succ, hA]
        linarith [hmm]
      have hwrap : wrap64 (A * 62 + ((m % 62 : Nat) : Int)) =
          A * 62 + ((m % 62 : Nat) : Int) := by
        apply wrap64_eq_of_bounds
        · linarith [hX, hd, hr]
        · rw [harith, pow_succ]
          rw [hlen, pow_succ] at hbound
          exact hbound
      have hdig := findIdx_digit (m % 62) (Nat.mod_lt _ (by omega))
      simp only [decodeBase62Aux, hdig]
      rw [hwrap, harith]

/-- C9 (amended): the id round-trip holds for every non-negative `int64` id:
`Parse(p, Format(p, n))` succeeds with exactly `n`. -/
theorem c9_format_parse_roundtrip (pfx : String) (n : Int)
    (h0 : 0 ≤ n) (h1 : n < 2 ^ 63) :
    Parse pfx (Format pfx n) = .ok n := by
  unfold Format Parse
  have hpre : ((pfx ++ "_").data).isPrefixOf ((pfx ++ "_") ++ encodeBase62 n).data = true := by
    rw [String.data_append, List.isPrefixOf_iff_prefix]
    exact ⟨(encodeBase62 n).data, rfl⟩
  rw [if_pos (show goHasPrefix (pfx ++ "_" ++ encodeBase62 n) (pfx ++ "_") = true from hpre)]
  unfold goTrimPrefix
  rw [if_pos hpre]
  simp only [String.data_append]
  rw [List.drop_left]
  show decodeBase62Aux (encodeBase62 n).data 0 = Except.ok n
  by_cases hn : n = 0
  · subst hn
    rfl
  · have henc : encodeBase62 n = String.mk (encodeBase62Aux n.toNat) := by
      unfold encodeBase62
      rw [if_neg hn]
    rw [henc]
    have hcast : ((n.toNat : Nat) : Int) = n := Int.toNat_of_nonneg h0
    have hbound : (0 : Int) * 62 ^ (encodeBase62Aux n.toNat).length + (n.toNat : Int)
        < 2 ^ 63 := by
      rw [zero_mul, zero_add, hcast]
      exact h1
    have := decode_encodeAux n.toNat 0 le_rfl hbound
    rw [this]
    simp only [zero_mul, zero_add, hcast]

/-- Witness for C9: `Parse("pay", Format("pay", 123456789))` returns 123456789. -/
theorem c9_format_parse_roundtrip_witness :
    Parse "pay" (Format "pay" 123456789) = .ok 123456789 :=
  c9_format_parse_roundtrip "pay" 123456789 (by decide) (by decide)

/-- Counterexample for C9 as stated: for the negative id `-1` the encoder's
loop never runs, `Format("pay", -1) = "pay_"`, and parsing it back yields `0`,
not `-1`. -/
theorem c9_negative_id_not_roundtrip :
    Parse "pay" (Format "pay" (-1)) = .ok 0 ∧ (0 : Int) ≠ -1 := by
  constructor
  · have he : encodeBase62 (-1) = "" := by
      unfold encodeBase62
      rw [if_neg (by decide)]
      show String.mk (encodeBase62Aux 0) = ""
      rw [encodeBase62Aux_zero]
    show Parse "pay" ("pay" ++ "_" ++ encodeBase62 (-1)) = .ok 0
    rw [he]
    rfl
  · decide

end Ids

namespace GinApi

/-! ### Claim C1 -/

/-- C1: for every request whose configured query parameter, after trimming and
lower-casing, is a (necessarily non-empty) member of the supported locale set,
`resolveLanguage` returns that query value, whatever the path, cookie jar and
Accept-Language header contain. -/
theorem c1_query_param_priority (req : Request) (supported : List String)
    (fallback queryParam cookieName : String)
    (hne : goToLower (goTrimSpace (reqQuery req queryParam)) ≠ "")
    (hmem : goToLower (goTrimSpace (reqQuery req queryParam)) ∈ supported) :
    resolveLanguage req supported fallback queryParam cookieName =
      goToLower (goTrimSpace (reqQuery req queryParam)) := by
  unfold resolveLanguage
  exact if_pos ⟨hne, hmem⟩

/-- Witness for C1: the query value `" JA "` resolves to `"ja"` despite a
conflicting path prefix, cookie and Accept-Language header. -/
theorem c1_query_param_priority_witness :
    resolveLanguage
      { query := [("lang", " JA ")], path := "/ko/x", rawQuery := "lang=+JA+",
        cookies := [("lang", "ko")], acceptLanguage := "ko" }
      ["en", "ja", "ko"] "en" "lang" "lang" = "ja" :=
  (c1_query_param_priority
      { query := [("lang", " JA ")], path := "/ko/x", rawQuery := "lang=+JA+",
        cookies := [("lang", "ko")], acceptLanguage := "ko" }
      ["en", "ja", "ko"] "en" "lang" "lang" (by decide) (by decide)).trans (by decide)

end GinApi

namespace Pagination

/-! ### Claim C10 -/

/-- C10: for `0 < defaultLimit ≤ maxLimit`, `Normalize` leaves the limit
strictly positive and at most `maxLimit` and the offset non-negative, and
does not change values already inside those bounds. -/
theorem c10_normalize_bounds (p : Params) (defaultLimit maxLimit : Int)
    (hd : 0 < defaultLimit) (hdm : defaultLimit ≤ maxLimit) :
    (0 < (Normalize p defaultLimit maxLimit).Limit ∧
     (Normalize p defaultLimit maxLimit).Limit ≤ maxLimit ∧
     0 ≤ (Normalize p defaultLimit maxLimit).Offset) ∧
    (0 < p.Limit → p.Limit ≤ maxLimit → (Normalize p defaultLimit maxLimit).Limit = p.Limit) ∧
    (0 ≤ p.Offset → (Normalize p defaultLimit maxLimit).Offset = p.Offset) := by
  unfold Normalize
  dsimp only
  split_ifs <;> simp_all <;> omega

/-- Witness for C10: `Normalize` on `{Limit := 0, Offset := -5}` with defaults
`(20, 100)` yields bounds-satisfying values, and in-bounds values are kept. -/
theorem c10_normalize_bounds_witness :
    (0 < (Normalize ⟨0, -5, ""⟩ 20 100).Limit ∧
     (Normalize ⟨0, -5, ""⟩ 20 100).Limit ≤ 100 ∧
     0 ≤ (Normalize ⟨0, -5, ""⟩ 20 100).Offset) ∧
    Normalize ⟨0, -5, ""⟩ 20 100 = ⟨20, 0, ""⟩ ∧
    (Normalize ⟨7, 3, "id"⟩ 20 100).Limit = 7 :=
  ⟨(c10_normalize_bounds ⟨0, -5, ""⟩ 20 100 (by decide) (by decide)).1, by decide,
   (c10_normalize_bounds ⟨7, 3, "id"⟩ 20 100 (by decide) (by decide)).2.1
     (by decide) (by decide)⟩

end Pagination

namespace GinApi

/-! ### Claim C8 -/

/-- C8: `GetLanguage` returns the gin-context slot when present and non-empty,
else the request-context value when non-empty, else `"en"`; it always returns
a non-empty locale (including for a nil gin context). -/
theorem c8_getLanguage_fallback (c : Option GinContext) :
    GetLanguage c ≠ "" ∧
    GetLanguage none = "en" ∧
    (∀ ctx s, c = some ctx → ctx.language = some s → s ≠ "" → GetLanguage c = s) ∧
    (∀ ctx v, c = some ctx → (ctx.language = none ∨ ctx.language = some "") →
      ctx.requestCtx = some v → v ≠ "" → GetLanguage c = v) ∧
    (∀ ctx, c = some ctx → (ctx.language = none ∨ ctx.language = some "") →
      (ctx.requestCtx = none ∨ ctx.requestCtx = some "") → GetLanguage c = "en") := by
  refine ⟨?_, rfl, ?_, ?_, ?_⟩
  · match c with
    | none => simp [GetLanguage]
    | some ctx =>
      match h : ctx.language with
      | some s =>
        by_cases hs : s = "" <;>
          simp [GetLanguage, h, hs, getLanguageFallback, LanguageFromContext] <;>
          rcases ctx.requestCtx with _ | v <;> simp [LanguageFromContext] <;>
          by_cases hv : v = "" <;> simp [hv]
      | none =>
        simp [GetLanguage, h, getLanguageFallback, LanguageFromContext]
        rcases ctx.requestCtx with _ | v <;> simp [LanguageFromContext] <;>
          by_cases hv : v = "" <;> simp [hv]
  · rintro ctx s rfl hl hs
    simp [GetLanguage, hl, hs]
  · rintro ctx v rfl hl hv hvne
    rcases hl with hl | hl <;>
      simp [GetLanguage, hl, getLanguageFallback, LanguageFromContext, hv, hvne]
  · rintro ctx rfl hl hr
    rcases hl with hl | hl <;> rcases hr with hr | hr <;>
      simp [GetLanguage, hl, getLanguageFallback, LanguageFromContext, hr]

/-- Witness for C8, exercising each tier at a concrete context. -/
theorem c8_getLanguage_fallback_witness :
    GetLanguage (some ⟨some "ja", some "ko"⟩) = "ja" ∧
    GetLanguage (some ⟨some "", some "ko"⟩) = "ko" ∧
    GetLanguage (some ⟨none, none⟩) = "en" :=
  ⟨(c8_getLanguage_fallback (some ⟨some "ja", some "ko"⟩)).2.2.1 _ _ rfl rfl (by decide),
   (c8_getLanguage_fallback (some ⟨some "", some "ko"⟩)).2.2.2.1 _ _ rfl (Or.inr rfl)
     rfl (by decide),
   (c8_getLanguage_fallback (some ⟨none, none⟩)).2.2.2.2 _ rfl (Or.inl rfl) (Or.inl rfl)⟩

/-! ### Claim C7 -/

/-- C7: with an empty configured supported list, the `Language` middleware
resolves exactly as it would with the single supported locale `"en"`, and the
`LanguageRedirect` middleware passes every request through unchanged. -/
theorem c7_empty_supported (cfg : LanguageConfig) (rcfg : LanguageRedirectConfig)
    (req req' : Request) (h : cfg.Supported = []) (h' : rcfg.Supported = []) :
    languageResolve cfg req = languageResolve { cfg with Supported := ["en"] } req ∧
    languageRedirect rcfg req' = RedirectOutcome.next none := by
  constructor
  · unfold languageResolve
    have h1 : effLangSupported cfg = ["en"] := by simp [effLangSupported, h]
    have h2 : effLangSupported { cfg with Supported := ["en"] } = ["en"] := rfl
    rw [h1, h2]
    rfl
  · unfold languageRedirect
    rw [if_pos h']

/-! ### Claim C6 -/

/-- C6: when no source (query, path, cookie, Accept-Language) yields a
supported locale, `resolveLanguage` returns the fallback verbatim — whether or
not the fallback is itself in the supported set. -/
theorem c6_default_verbatim (req : Request) (supported : List String)
    (fallback queryParam cookieName : String)
    (hq : ¬(goToLower (goTrimSpace (reqQuery req queryParam)) ≠ "" ∧
            goToLower (goTrimSpace (reqQuery req queryParam)) ∈ supported))
    (hp : ¬(extractLanguageFromPath req.path ≠ "" ∧
            extractLanguageFromPath req.path ∈ supported))
    (hc : ∀ v, reqCookie req cookieName = some v → v ≠ "" →
            goToLower (goTrimSpace v) ∉ supported)
    (ha : ParseAcceptLanguage req.acceptLanguage supported = "") :
    resolveLanguage req supported fallback queryParam cookieName = fallback := by
  unfold resolveLanguage
  rw [if_neg hq, if_neg hp]
  rcases hrc : reqCookie req cookieName with _ | v
  · by_cases hal : req.acceptLanguage = ""
    · simp only [ne_eq, ite_self, hal, not_true_eq_false, if_false]
    · simp only [ne_eq, ite_self, hal, not_false_eq_true, if_true, ha, not_true_eq_false,
        if_false]
  · by_cases hcn : cookieName = ""
    · by_cases hal : req.acceptLanguage = ""
      · simp only [hcn, ne_eq, not_true_eq_false, if_false, hal]
      · simp only [hcn, ne_eq, not_true_eq_false, if_false, hal, not_false_eq_true, if_true, ha]
    · by_cases hv : v = ""
      · by_cases hal : req.acceptLanguage = ""
        · simp only [ne_eq, hcn, not_false_eq_true, if_true, hv, not_true_eq_false, if_false, hal]
        · simp only [ne_eq, hcn, not_false_eq_true, if_true, hv, not_true_eq_false, if_false,
            hal, ha]
      · have hns := hc v hrc hv
        by_cases hal : req.acceptLanguage = ""
        · simp only [ne_eq, hcn, not_false_eq_true, if_true, hv, hns, if_false, hal,
            not_true_eq_false]
        · simp only [ne_eq, hcn, not_false_eq_true, if_true, hv, hns, if_false, hal, ha,
            not_true_eq_false]

/-- Witness for C6: nothing matches and the misconfigured default `"xx"`
(outside the supported set) is returned anyway. -/
theorem c6_default_verbatim_witness :
    resolveLanguage
      { query := [("lang", "fr")], path := "/de/x", rawQuery := "lang=fr",
        cookies := [("lang", "pt")], acceptLanguage := "fr,de" }
      ["en", "ja"] "xx" "lang" "lang" = "xx" ∧ "xx" ∉ ["en", "ja"] :=
  ⟨c6_default_verbatim
      { query := [("lang", "fr")], path := "/de/x", rawQuery := "lang=fr",
        cookies := [("lang", "pt")], acceptLanguage := "fr,de" }
      ["en", "ja"] "xx" "lang" "lang" (by decide) (by decide)
      (by intro v hv hne; cases hv; decide) (by decide), by decide⟩

/-! ### Claims C3, C4, C5: the canonicalization middleware -/

/-- The data-model invariant on the configured supported set: lower-cased
entries are 2-3 character locale codes, already trimmed and lower-case. -/
def WellFormedSupported (cfg : LanguageRedirectConfig) : Prop :=
  ∀ l ∈ effRedirectSupported cfg,
    (l.length = 2 ∨ l.length = 3) ∧ goTrimSpace l = l ∧ goToLower l = l

theorem goToLower_length (s : String) : (goToLower s).length = s.length := by
  show (s.data.map toLowerChar).length = s.data.length
  exact List.length_map _ _

theorem ne_empty_of_length23 (s : String) (h : s.length = 2 ∨ s.length = 3) :
    s ≠ "" := by
  intro he
  subst he
  simp at h

/-- A sample canonicalization configuration used by witnesses. -/
def sampleCfg : LanguageRedirectConfig :=
  { Supported := ["en", "ja"], Default := "en", SkipPaths := [], SkipExtensions := [] }

/-- A sample unprefixed request carrying the `lang=ja` cookie. -/
def sampleReqCookie : Request :=
  { query := [], path := "/videos", rawQuery := "page=2",
    cookies := [("lang", "ja")], acceptLanguage := "" }

/-- A sample `/ja/`-prefixed request. -/
def sampleReqPrefixed : Request :=
  { query := [], path := "/ja/galleries", rawQuery := "", cookies := [],
    acceptLanguage := "" }

/-- A sample unprefixed, cookie-less request. -/
def sampleReqPlain : Request :=
  { query := [], path := "/galleries", rawQuery := "x=1",
    cookies := [("lang", "ja")], acceptLanguage := "" }

/-- C3: a non-skipped request is redirected exactly when the lower-cased first
path segment is not a supported locale; skipped requests always pass through. -/
theorem c3_redirect_iff (cfg : LanguageRedirectConfig) (req : Request)
    (hne : cfg.Supported ≠ []) (hwf : WellFormedSupported cfg) :
    (languageRedirect cfg req).isRedirect = true ↔
      (shouldSkipRedirect req.path (effSkipPaths cfg) (effSkipExtensions cfg) = false ∧
       goToLower (firstPathSegment req.path) ∉ effRedirectSupported cfg) := by
  unfold languageRedirect
  rw [if_neg hne]
  by_cases hskip : shouldSkipRedirect req.path (effSkipPaths cfg) (effSkipExtensions cfg) = true
  · rw [if_pos hskip, hskip]
    simp [RedirectOutcome.isRedirect]
  · have hskip' : shouldSkipRedirect req.path (effSkipPaths cfg) (effSkipExtensions cfg)
        = false := by simpa using hskip
    rw [if_neg hskip, hskip']
    by_cases hval : extractLanguageFromPath req.path ≠ "" ∧
        extractLanguageFromPath req.path ∈ effRedirectSupported cfg
    · rw [if_pos hval]
      refine iff_of_false (by simp [RedirectOutcome.isRedirect]) ?_
      rintro ⟨-, habs⟩
      apply habs
      have hlen : (firstPathSegment req.path).length = 2 ∨
          (firstPathSegment req.path).length = 3 := by
        by_contra hnl
        have hz : extractLanguageFromPath req.path = "" := by
          unfold extractLanguageFromPath
          rw [if_neg hnl]
        exact hval.1 hz
      have hex : extractLanguageFromPath req.path =
          goToLower (firstPathSegment req.path) := by
        unfold extractLanguageFromPath
        rw [if_pos hlen]
      rw [← hex]
      exact hval.2
    · rw [if_neg hval]
      refine iff_of_true rfl ⟨rfl, fun habs => ?_⟩
      have hlen2 := (hwf _ habs).1
      have hlen : (firstPathSegment req.path).length = 2 ∨
          (firstPathSegment req.path).length = 3 := by
        rw [← goToLower_length]; exact hlen2
      have hex : extractLanguageFromPath req.path =
          goToLower (firstPathSegment req.path) := by
        unfold extractLanguageFromPath
        rw [if_pos hlen]
      exact hval ⟨hex ▸ ne_empty_of_length23 _ hlen2, hex ▸ habs⟩

/-- Witness for C3: the unprefixed `/videos` request is redirected, and the
equivalence is exercised at that concrete input. -/
theorem c3_redirect_iff_witness :
    ((languageRedirect sampleCfg sampleReqCookie).isRedirect = true ↔
      (shouldSkipRedirect sampleReqCookie.path (effSkipPaths sampleCfg)
          (effSkipExtensions sampleCfg) = false ∧
       goToLower (firstPathSegment sampleReqCookie.path) ∉ effRedirectSupported sampleCfg)) ∧
    (languageRedirect sampleCfg sampleReqCookie).isRedirect = true :=
  ⟨c3_redirect_iff sampleCfg sampleReqCookie (by decide)
      (by unfold WellFormedSupported; decide), by decide⟩

/-- C4: every redirect issued by `LanguageRedirect` is a 302 whose location is
`/` + preferred locale + original path, with `?` + raw query appended exactly
when the query string is non-empty; the preferred locale comes from
`detectPreferredLanguage` (cookie, then Accept-Language, then default), which
reads neither the query parameters nor the path. The `redirect` outcome
models `c.Redirect(...)` followed by `c.Abort()`: no downstream handler runs. -/
theorem c4_redirect_target (cfg : LanguageRedirectConfig) (req : Request)
    (st : Nat) (loc : String)
    (h : languageRedirect cfg req = RedirectOutcome.redirect st loc) :
    st = 302 ∧
    loc = "/" ++ detectPreferredLanguage req (effRedirectSupported cfg)
            (effDefaultLang cfg.Default) ++ req.path ++
          (if req.rawQuery ≠ "" then "?" ++ req.rawQuery else "") ∧
    (∀ q p rq, detectPreferredLanguage { req with query := q, path := p, rawQuery := rq }
        (effRedirectSupported cfg) (effDefaultLang cfg.Default) =
      detectPreferredLanguage req (effRedirectSupported cfg) (effDefaultLang cfg.Default)) := by
  unfold languageRedirect at h
  split_ifs at h
  injection h with hst hloc
  subst hst
  subst hloc
  refine ⟨rfl, ?_, fun q p rq => rfl⟩
  unfold redirectLocation
  by_cases hrq : req.rawQuery = ""
  · simp [hrq, String.append_empty]
  · simp only [ne_eq, hrq, not_false_eq_true, if_true]
    rw [String.append_assoc]

/-- Witness for C4 at a concrete redirected request with a query string. -/
theorem c4_redirect_target_witness :
    (302 : Nat) = 302 ∧
    "/ja/galleries?x=1" =
      "/" ++ detectPreferredLanguage sampleReqPlain (effRedirectSupported sampleCfg)
          (effDefaultLang sampleCfg.Default) ++ sampleReqPlain.path ++
        (if sampleReqPlain.rawQuery ≠ "" then "?" ++ sampleReqPlain.rawQuery else "") ∧
    (∀ q p rq, detectPreferredLanguage
        { sampleReqPlain with query := q, path := p, rawQuery := rq }
        (effRedirectSupported sampleCfg) (effDefaultLang sampleCfg.Default) =
      detectPreferredLanguage sampleReqPlain (effRedirectSupported sampleCfg)
        (effDefaultLang sampleCfg.Default)) :=
  c4_redirect_target sampleCfg sampleReqPlain 302 "/ja/galleries?x=1" (by decide)

/-- C5: when a non-exempt request passes through `LanguageRedirect` with a
supported path-prefix locale `L` (setting the preference cookie `lang=L`), a
later non-exempt request that carries that cookie, has no Accept-Language
header and no supported path prefix is redirected to `/L` + its path. -/
theorem c5_cookie_roundtrip (cfg : LanguageRedirectConfig) (req1 req2 : Request)
    (L : String) (hwf : WellFormedSupported cfg)
    (h1 : languageRedirect cfg req1 = RedirectOutcome.next (some L))
    (hc : reqCookie req2 LanguageCookieName = some L)
    (hal : req2.acceptLanguage = "")
    (hskip : shouldSkipRedirect req2.path (effSkipPaths cfg) (effSkipExtensions cfg) = false)
    (hpre : ¬(extractLanguageFromPath req2.path ≠ "" ∧
              extractLanguageFromPath req2.path ∈ effRedirectSupported cfg)) :
    languageRedirect cfg req2 =
      RedirectOutcome.redirect 302
        ("/" ++ L ++ req2.path ++
          (if req2.rawQuery ≠ "" then "?" ++ req2.rawQuery else "")) := by
  -- invert the pass-through of the first request
  unfold languageRedirect at h1
  by_cases hemp : cfg.Supported = []
  · rw [if_pos hemp] at h1
    cases h1
  rw [if_neg hemp] at h1
  split_ifs at h1 with hs1 hv1
  · cases h1
  · injection h1 with h1'
    injection h1' with hL
    have hmem : L ∈ effRedirectSupported cfg := hL ▸ hv1.2
    obtain ⟨hlen, htrim, hlow⟩ := hwf L hmem
    have hLne : L ≠ "" := ne_empty_of_length23 L hlen
    -- the second request's preferred language is the cookie value L
    have hdet : detectPreferredLanguage req2 (effRedirectSupported cfg)
        (effDefaultLang cfg.Default) = L := by
      unfold detectPreferredLanguage
      rw [hc]
      simp [hLne, htrim, hlow, hmem]
    -- and it is redirected there
    unfold languageRedirect
    rw [if_neg hemp, if_neg (by simp [hskip]), if_neg hpre]
    unfold redirectLocation
    rw [hdet]
    by_cases hrq : req2.rawQuery = ""
    · simp [hrq, String.append_empty]
    · simp only [ne_eq, hrq, not_false_eq_true, if_true]
      rw [String.append_assoc]

/-- Witness for C5: request 1 on `/ja/galleries` sets `lang=ja`; request 2 on
`/videos?page=2` with that cookie is redirected to `/ja/videos?page=2`. -/
theorem c5_cookie_roundtrip_witness :
    languageRedirect sampleCfg sampleReqCookie =
      RedirectOutcome.redirect 302
        ("/" ++ "ja" ++ sampleReqCookie.path ++
          (if sampleReqCookie.rawQuery ≠ "" then "?" ++ sampleReqCookie.rawQuery else "")) :=
  c5_cookie_roundtrip sampleCfg sampleReqPrefixed sampleReqCookie "ja"
    (by unfold WellFormedSupported; decide) (by decide) (by decide) (by decide)
    (by decide) (by decide)

/-- Witness for C7 at a concrete request that would otherwise be redirected. -/
theorem c7_empty_supported_witness :
    languageResolve { Supported := [], Default := "", QueryParam := "", CookieName := "" }
      { query := [], path := "/videos", rawQuery := "", cookies := [],
        acceptLanguage := "fr,de" } =
      languageResolve { Supported := ["en"], Default := "", QueryParam := "", CookieName := "" }
        { query := [], path := "/videos", rawQuery := "", cookies := [],
          acceptLanguage := "fr,de" } ∧
    languageRedirect { Supported := [], Default := "en", SkipPaths := [], SkipExtensions := [] }
      { query := [], path := "/videos", rawQuery := "", cookies := [],
        acceptLanguage := "fr,de" } = RedirectOutcome.next none :=
  c7_empty_supported
    { Supported := [], Default := "", QueryParam := "", CookieName := "" }
    { Supported := [], Default := "en", SkipPaths := [], SkipExtensions := [] }
    { query := [], path := "/videos", rawQuery := "", cookies := [], acceptLanguage := "fr,de" }
    { query := [], path := "/videos", rawQuery := "", cookies := [], acceptLanguage := "fr,de" }
    rfl rfl

end GinApi
namespace GinApi

/-! ### Claim C2: characterizing the Accept-Language selection -/

/-- The running maximum of the quality values of the supported candidates of
`cs`, starting from `b`. -/
def maxQ (supported : List String) (cs : List Cand) (b : ℚ) : ℚ :=
  cs.foldl (fun m c => if c.1 ∈ supported then max m c.2 else m) b

/-- The selection the spec describes, amended with the `-1` quality floor the
code's scan imposes: among candidates whose subtag is supported, the earliest
one carrying the highest quality — provided that quality exceeds the scan's
initial best of `-1`; otherwise the empty string. -/
def selectBestAmended (cs : List Cand) (supported : List String) : String :=
  if -1 < maxQ supported cs (-1) then
    (((cs.filter (fun c => decide (c.1 ∈ supported))).find?
        (fun c => decide (c.2 = maxQ supported cs (-1)))).map Prod.fst).getD ""
  else ""

/-- The selection exactly as the claim states it (no quality floor): among
supported candidates, the earliest one carrying the strictly highest quality;
the empty string only when no candidate is supported. -/
def selectClaimed (cs : List Cand) (supported : List String) : String :=
  match cs.filter (fun c => decide (c.1 ∈ supported)) with
  | [] => ""
  | g :: gs =>
    match (g :: gs).find? (fun c => decide (c.2 = (gs.map Prod.snd).foldl max g.2)) with
    | some c => c.1
    | none => ""

theorem le_maxQ (supported : List String) :
    ∀ (cs : List Cand) (b : ℚ), b ≤ maxQ supported cs b := by
  intro cs
  induction cs with
  | nil => intro b; exact le_refl b
  | cons c cs ih =>
    intro b
    show b ≤ maxQ supported cs (if c.1 ∈ supported then max b c.2 else b)
    by_cases hs : c.1 ∈ supported
    · rw [if_pos hs]
      exact le_trans (le_max_left b c.2) (ih _)
    · rw [if_neg hs]
      exact ih b

theorem maxQ_mem_le (supported : List String) :
    ∀ (cs : List Cand) (b : ℚ) (c : Cand), c ∈ cs → c.1 ∈ supported →
      c.2 ≤ maxQ supported cs b := by
  intro cs
  induction cs with
  | nil =>
    intro b c hc
    cases hc
  | cons d cs ih =>
    intro b c hc hcs
    rcases List.mem_cons.mp hc with rfl | hmem
    · show c.2 ≤ maxQ supported cs (if c.1 ∈ supported then max b c.2 else b)
      rw [if_pos hcs]
      exact le_trans (le_max_right b c.2) (le_maxQ supported cs _)
    · exact ih _ c hmem hcs

theorem maxQ_attained (supported : List String) :
    ∀ (cs : List Cand) (b : ℚ),
      maxQ supported cs b = b ∨
      ∃ c ∈ cs, c.1 ∈ supported ∧ maxQ supported cs b = c.2 := by
  intro cs
  induction cs with
  | nil => intro b; exact Or.inl rfl
  | cons d cs ih =>
    intro b
    by_cases hs : d.1 ∈ supported
    · have hstep : maxQ supported (d :: cs) b = maxQ supported cs (max b d.2) := by
        show maxQ supported cs (if d.1 ∈ supported then max b d.2 else b) = _
        rw [if_pos hs]
      rcases ih (max b d.2) with h | ⟨c, hc, hcs, he⟩
      · rcases max_choice b d.2 with hm | hm
        · exact Or.inl (by rw [hstep, h, hm])
        · exact Or.inr ⟨d, List.mem_cons_self d cs, hs, by rw [hstep, h, hm]⟩
      · exact Or.inr ⟨c, List.mem_cons_of_mem d hc, hcs, by rw [hstep, he]⟩
    · have hstep : maxQ supported (d :: cs) b = maxQ supported cs b := by
        show maxQ supported cs (if d.1 ∈ supported then max b d.2 else b) = _
        rw [if_neg hs]
      rcases ih b with h | ⟨c, hc, hcs, he⟩
      · exact Or.inl (by rw [hstep, h])
      · exact Or.inr ⟨c, List.mem_cons_of_mem d hc, hcs, by rw [hstep, he]⟩

theorem find?_congr_mem {α : Type} (p q : α → Bool) :
    ∀ (l : List α), (∀ x ∈ l, p x = q x) → l.find? p = l.find? q := by
  intro l
  induction l with
  | nil => intro _; rfl
  | cons a l ih =>
    intro h
    by_cases hpa : p a = true
    · rw [List.find?_cons_of_pos l hpa,
        List.find?_cons_of_pos l (by rw [← h a (List.mem_cons_self a l)]; exact hpa)]
    · have hqa : ¬ q a = true := by
        rw [← h a (List.mem_cons_self a l)]
        exact hpa
      rw [List.find?_cons_of_neg l hpa, List.find?_cons_of_neg l hqa]
      exact ih (fun x hx => h x (List.mem_cons_of_mem a hx))

end GinApi
namespace GinApi

/-- Characterization of the best-candidate scan: starting from `(bl, bq)`, the
fold returns the earliest supported candidate whose quality is the running
maximum and strictly exceeds `bq`; when no supported candidate beats `bq`, the
initial pair survives. -/
theorem foldl_selStep_eq (sup : List String) :
    ∀ (cs : List Cand) (bl : String) (bq : ℚ),
      cs.foldl (selStep sup) (bl, bq) =
        match (cs.filter (fun c => decide (c.1 ∈ sup))).find?
            (fun c => decide (bq < c.2) && decide (maxQ sup cs bq ≤ c.2)) with
        | some c => c
        | none => (bl, bq) := by
  intro cs
  induction cs with
  | nil => intro bl bq; rfl
  | cons c cs ih =>
    rcases c with ⟨cl, cq⟩
    intro bl bq
    rw [List.foldl_cons]
    by_cases hs : cl ∈ sup
    · have hmqs : maxQ sup ((cl, cq) :: cs) bq = maxQ sup cs (max bq cq) := by
        show maxQ sup cs (if (cl, cq).1 ∈ sup then max bq cq else bq) = _
        rw [if_pos hs]
      by_cases hlt : bq < cq
      · have hstep : selStep sup (bl, bq) (cl, cq) = (cl, cq) := if_pos ⟨hs, hlt⟩
        have hmq : maxQ sup ((cl, cq) :: cs) bq = maxQ sup cs cq := by
          rw [hmqs, max_eq_right hlt.le]
        rw [hstep, ih cl cq, hmq, List.filter_cons_of_pos (by simpa using hs)]
        have hge : cq ≤ maxQ sup cs cq := le_maxQ sup cs cq
        by_cases hMc : maxQ sup cs cq ≤ cq
        · have hMeq : maxQ sup cs cq = cq := le_antisymm hMc hge
          have hnone : (cs.filter (fun c => decide (c.1 ∈ sup))).find?
              (fun c => decide (cq < c.2) && decide (maxQ sup cs cq ≤ c.2)) = none := by
            rw [List.find?_eq_none]
            intro x hx
            have hxle : x.2 ≤ maxQ sup cs cq :=
              maxQ_mem_le sup cs cq x (List.mem_filter.mp hx).1
                (by simpa using (List.mem_filter.mp hx).2)
            rw [hMeq] at hxle
            simp [not_lt.mpr hxle]
          have hhead : (decide (bq < (cl, cq).2) && decide (maxQ sup cs cq ≤ (cl, cq).2))
              = true := by
            simp [hlt, hMc]
          rw [hnone, @List.find?_cons_of_pos Cand
            (fun c => decide (bq < c.2) && decide (maxQ sup cs cq ≤ c.2)) (cl, cq)
            (cs.filter (fun c => decide (c.1 ∈ sup))) hhead]
        · have hcong : (cs.filter (fun c => decide (c.1 ∈ sup))).find?
                (fun c => decide (bq < c.2) && decide (maxQ sup cs cq ≤ c.2)) =
              (cs.filter (fun c => decide (c.1 ∈ sup))).find?
                (fun c => decide (cq < c.2) && decide (maxQ sup cs cq ≤ c.2)) := by
            apply find?_congr_mem
            intro x hx
            have hxle : x.2 ≤ maxQ sup cs cq :=
              maxQ_mem_le sup cs cq x (List.mem_filter.mp hx).1
                (by simpa using (List.mem_filter.mp hx).2)
            by_cases hxM : maxQ sup cs cq ≤ x.2
            · have hxeq : x.2 = maxQ sup cs cq := le_antisymm hxle hxM
              have h1 : bq < x.2 := by
                rw [hxeq]
                exact lt_of_le_of_lt hlt.le (lt_of_not_le hMc)
              have h2 : cq < x.2 := by
                rw [hxeq]
                exact lt_of_not_le hMc
              simp [h1, h2, hxM]
            · simp [hxM]
          have hhead : ¬ ((decide (bq < (cl, cq).2) && decide (maxQ sup cs cq ≤ (cl, cq).2))
              = true) := by
            simp [hMc]
          rw [@List.find?_cons_of_neg Cand
            (fun c => decide (bq < c.2) && decide (maxQ sup cs cq ≤ c.2)) (cl, cq)
            (cs.filter (fun c => decide (c.1 ∈ sup))) hhead, ← hcong]
          have hsome : ∃ x ∈ cs.filter (fun c => decide (c.1 ∈ sup)),
              (decide (bq < x.2) && decide (maxQ sup cs cq ≤ x.2)) = true := by
            rcases maxQ_attained sup cs cq with h | ⟨d, hd, hds, hde⟩
            · exact absurd h (by intro hh; exact hMc (le_of_eq hh))
            · refine ⟨d, List.mem_filter.mpr ⟨hd, by simpa using hds⟩, ?_⟩
              have h1 : bq < d.2 := by
                rw [← hde]
                exact lt_of_le_of_lt hlt.le (lt_of_not_le hMc)
              have h2 : maxQ sup cs cq ≤ d.2 := le_of_eq hde
              simp [h1, h2]
          obtain ⟨e, he⟩ := Option.isSome_iff_exists.mp (List.find?_isSome.mpr hsome)
          rw [he]
      · have hstep : selStep sup (bl, bq) (cl, cq) = (bl, bq) := by
          unfold selStep
          rw [if_neg (by tauto)]
        have hmq : maxQ sup ((cl, cq) :: cs) bq = maxQ sup cs bq := by
          rw [hmqs, max_eq_left (not_lt.mp hlt)]
        have hhead : ¬ ((decide (bq < (cl, cq).2) && decide (maxQ sup ((cl, cq) :: cs) bq
            ≤ (cl, cq).2)) = true) := by
          simp [hlt]
        rw [hstep, ih bl bq, List.filter_cons_of_pos (by simpa using hs),
          @List.find?_cons_of_neg Cand
            (fun c => decide (bq < c.2) && decide (maxQ sup ((cl, cq) :: cs) bq ≤ c.2))
            (cl, cq) (cs.filter (fun c => decide (c.1 ∈ sup))) hhead, hmq]
    · have hstep : selStep sup (bl, bq) (cl, cq) = (bl, bq) := by
        unfold selStep
        rw [if_neg (by tauto)]
      have hmq : maxQ sup ((cl, cq) :: cs) bq = maxQ sup cs bq := by
        show maxQ sup cs (if (cl, cq).1 ∈ sup then max bq cq else bq) = _
        rw [if_neg hs]
      rw [hstep, ih bl bq, List.filter_cons_of_neg (by simpa using hs), hmq]

end GinApi
namespace GinApi

/-- C2 (amended): `ParseAcceptLanguage` returns the primary subtag of the
earliest supported candidate with the strictly highest quality value (absent
or unparsable `q` counting as 1.0), provided that quality exceeds the scan's
initial best of `-1`; otherwise — in particular whenever no candidate's
subtag is supported — it returns the empty string. -/
theorem c2_parseAcceptLanguage_best (header : String) (sup : List String) :
    ParseAcceptLanguage header sup = selectBestAmended (acceptCandidates header) sup := by
  unfold ParseAcceptLanguage selectBest selectBestAmended
  rw [foldl_selStep_eq sup (acceptCandidates header) "" (-1)]
  set cs := acceptCandidates header with hcs
  by_cases hlt : -1 < maxQ sup cs (-1)
  · rw [if_pos hlt]
    have hcong : (cs.filter (fun c => decide (c.1 ∈ sup))).find?
          (fun c => decide ((-1 : ℚ) < c.2) && decide (maxQ sup cs (-1) ≤ c.2)) =
        (cs.filter (fun c => decide (c.1 ∈ sup))).find?
          (fun c => decide (c.2 = maxQ sup cs (-1))) := by
      apply find?_congr_mem
      intro x hx
      have hxle : x.2 ≤ maxQ sup cs (-1) :=
        maxQ_mem_le sup cs (-1) x (List.mem_filter.mp hx).1
          (by simpa using (List.mem_filter.mp hx).2)
      by_cases hxe : x.2 = maxQ sup cs (-1)
      · have h1 : (-1 : ℚ) < x.2 := by rw [hxe]; exact hlt
        simp [h1, hxe, hlt]
      · have h2 : ¬ (maxQ sup cs (-1) ≤ x.2) := fun hc => hxe (le_antisymm hxle hc)
        simp [h2, hxe]
    rw [hcong]
    have hsome : ∃ x ∈ cs.filter (fun c => decide (c.1 ∈ sup)),
        decide (x.2 = maxQ sup cs (-1)) = true := by
      rcases maxQ_attained sup cs (-1) with h | ⟨d, hd, hds, hde⟩
      · exact absurd hlt (by rw [h]; exact lt_irrefl _)
      · exact ⟨d, List.mem_filter.mpr ⟨hd, by simpa using hds⟩, by simp [hde.symm]⟩
    obtain ⟨e, he⟩ := Option.isSome_iff_exists.mp (List.find?_isSome.mpr hsome)
    rw [he]
    rfl
  · rw [if_neg hlt]
    have hnone : (cs.filter (fun c => decide (c.1 ∈ sup))).find?
        (fun c => decide ((-1 : ℚ) < c.2) && decide (maxQ sup cs (-1) ≤ c.2)) = none := by
      rw [List.find?_eq_none]
      intro x hx
      have hxle : x.2 ≤ maxQ sup cs (-1) :=
        maxQ_mem_le sup cs (-1) x (List.mem_filter.mp hx).1
          (by simpa using (List.mem_filter.mp hx).2)
      have hx1 : ¬ ((-1 : ℚ) < x.2) := fun hc =>
        hlt (lt_of_lt_of_le hc hxle)
      simp [hx1]
    rw [hnone]

/-- Counterexample to C2 as stated: in `"en;q=-1"` with supported `{en}`, the
supported entry `en` has the (unique, hence strictly highest) quality `-1`,
so the claim demands `"en"`; the code's scan starts at `bestQ = -1` with a
strict comparison and returns `""`. -/
theorem c2_quality_floor_counterexample :
    ParseAcceptLanguage "en;q=-1" ["en"] = "" ∧
    selectClaimed (acceptCandidates "en;q=-1") ["en"] = "en" ∧
    ("" : String) ≠ "en" := by
  have h1 : acceptCandidates "en;q=-1" =
      [("en", (-1 : ℚ) * ((digitsToNat ['1'] : ℚ) +
        (digitsToNat [] : ℚ) / (10 : ℚ) ^ (List.length ([] : List Char))))] := rfl
  have hm : (-1 : ℚ) * ((digitsToNat ['1'] : ℚ) +
      (digitsToNat [] : ℚ) / (10 : ℚ) ^ (List.length ([] : List Char))) = -1 := by
    have hd1 : digitsToNat ['1'] = 1 := rfl
    have hd0 : digitsToNat [] = 0 := rfl
    rw [hd1, hd0]
    norm_num
  have h2 : acceptCandidates "en;q=-1" = [("en", (-1 : ℚ))] := by rw [h1, hm]
  refine ⟨?_, ?_, by decide⟩
  · unfold ParseAcceptLanguage
    rw [h2]
    decide
  · rw [h2]
    decide

end GinApi
